import Mathlib

/-!
Verification of the canteen menu management system.

The development shallowly embeds the validation layer, the CRUD facade over
the menu catalog store, the admin user handlers and the public viewer's
level-selection logic, and proves (or refutes) the specified properties
about them.  Strings are modelled as lists of characters so that all
operations are executable and provable by ordinary list induction.
-/

namespace Canteen

/-- Strings are modelled as lists of characters. -/
abbrev Str := List Char

instance {ε α : Type} [DecidableEq ε] [DecidableEq α] : DecidableEq (Except ε α) :=
  fun a b =>
    match a, b with
    | .error e1, .error e2 =>
      if h : e1 = e2 then .isTrue (by rw [h]) else .isFalse (by simp [h])
    | .error _, .ok _ => .isFalse (by simp)
    | .ok _, .error _ => .isFalse (by simp)
    | .ok v1, .ok v2 =>
      if h : v1 = v2 then .isTrue (by rw [h]) else .isFalse (by simp [h])

/-- ASCII case folding as applied by a JavaScript case-insensitive regex on
the ASCII patterns used here: uppercase `A`-`Z` map to lowercase, every
other character is unchanged. -/
def foldCase (c : Char) : Char :=
  if 65 ≤ c.toNat ∧ c.toNat ≤ 90 then Char.ofNat (c.toNat + 32) else c

/-- Case-insensitive character comparison (regex `i` flag). -/
def chEqCI (p c : Char) : Bool := foldCase p == foldCase c

/-- If `pat` is a case-insensitive leading pattern of `s`, return the rest
of `s`, otherwise `none`.  This is one attempted regex literal match at the
current scan position. -/
def dropPatCI : Str → Str → Option Str
  | [], s => some s
  | _ :: _, [] => none
  | p :: ps, c :: cs => if chEqCI p c then dropPatCI ps cs else none

/-- The literal pattern of `.replace(/javascript:/gi, "")`. -/
def jsProto : Str := ['j', 'a', 'v', 'a', 's', 'c', 'r', 'i', 'p', 't', ':']

/-- The `<script>` tag as a character list. -/
def scriptTag : Str := ['<', 's', 'c', 'r', 'i', 'p', 't', '>']

theorem dropPatCI_sublist : ∀ (p s t : Str), dropPatCI p s = some t → t.Sublist s := by
  intro p
  induction p with
  | nil =>
    intro s t h
    simp only [dropPatCI, Option.some.injEq] at h
    simp [h]
  | cons q qs ih =>
    intro s t h
    match s with
    | [] => simp [dropPatCI] at h
    | c :: cs =>
      simp only [dropPatCI] at h
      split at h
      · exact List.Sublist.cons c (ih cs t h)
      · exact absurd h (by simp)

/-- Fuel-indexed scanner for `.replace(/javascript:/gi, "")`: a single
left-to-right scan that deletes each non-overlapping case-insensitive
occurrence of `javascript:` and resumes scanning after the deleted
occurrence.  The fuel only serves structural recursion; each deletion or
single-step advance strictly shrinks the input, so fuel `s.length` always
suffices. -/
def removeJsProtoF : Nat → Str → Str
  | 0, s => s
  | fuel + 1, s =>
    match s with
    | [] => []
    | c :: cs =>
      match dropPatCI jsProto (c :: cs) with
      | some rest => removeJsProtoF fuel rest
      | none => c :: removeJsProtoF fuel cs

/-- `input.replace(/javascript:/gi, "")`. -/
def removeJsProto (s : Str) : Str := removeJsProtoF s.length s

/-- `\w` of a JavaScript regex: ASCII letters, digits and underscore. -/
def isWordChar (c : Char) : Bool :=
  (97 ≤ c.toNat && c.toNat ≤ 122) || (65 ≤ c.toNat && c.toNat ≤ 90) ||
    (48 ≤ c.toNat && c.toNat ≤ 57) || c == '_'

/-- One attempted match of `/on\w+=/i` at the current scan position:
`o` and `n` case-insensitively, then a nonempty maximal run of word
characters, then a literal `=`.  Returns the remainder after the match. -/
def matchOn (s : Str) : Option Str :=
  match s with
  | c1 :: c2 :: cs =>
    if chEqCI 'o' c1 && chEqCI 'n' c2 then
      if (cs.takeWhile isWordChar).length = 0 then none
      else
        match cs.dropWhile isWordChar with
        | '=' :: r => some r
        | _ => none
    else none
  | _ => none

theorem matchOn_sublist : ∀ (s t : Str), matchOn s = some t → t.Sublist s ∧ t.length + 1 < s.length := by
  intro s t h
  match s with
  | [] => simp [matchOn] at h
  | [c] => simp [matchOn] at h
  | c1 :: c2 :: cs =>
    simp only [matchOn] at h
    split at h
    · split at h
      · exact absurd h (by simp)
      · rename_i hrun
        split at h
        · rename_i r hdw
          have h1 : (cs.dropWhile isWordChar).Sublist cs := List.dropWhile_sublist _
          rw [hdw] at h1
          have h2 : t.Sublist ('=' :: r) := by
            simp only [Option.some.injEq] at h
            subst h
            exact List.sublist_cons_self _ _
          have h3 : t.Sublist cs := h2.trans h1
          constructor
          · exact (h3.trans (List.sublist_cons_self c2 cs)).trans
              (List.sublist_cons_self c1 (c2 :: cs)) |>.trans (List.Sublist.refl _)
          · have h4 : t.length + 1 ≤ ('=' :: r).length := by
              simp only [Option.some.injEq] at h
              subst h
              simp
            have h5 : ('=' :: r).length ≤ cs.length := h1.length_le
            simp only [List.length_cons]
            omega
        · exact absurd h (by simp)
    · exact absurd h (by simp)

/-- Fuel-indexed scanner for `.replace(/on\w+=/gi, "")`: single
left-to-right scan deleting each non-overlapping inline-event-handler
match. -/
def removeOnHandlersF : Nat → Str → Str
  | 0, s => s
  | fuel + 1, s =>
    match s with
    | [] => []
    | c :: cs =>
      match matchOn (c :: cs) with
      | some rest => removeOnHandlersF fuel rest
      | none => c :: removeOnHandlersF fuel cs

/-- `input.replace(/on\w+=/gi, "")`. -/
def removeOnHandlers (s : Str) : Str := removeOnHandlersF s.length s

/-- `input.replace(/[<>]/g, "")`: remove every angle bracket. -/
def stripAngles (s : Str) : Str :=
  s.filter (fun c => !(c == '<' || c == '>'))

/-- Whitespace for JavaScript `String.prototype.trim` (the ASCII portion,
which is all that can remain after form input). -/
def isJsSpace (c : Char) : Bool :=
  c == ' ' || c == '\t' || c == '\n' || c == '\r' || c.toNat == 11 || c.toNat == 12

/-- Remove the maximal trailing run of characters satisfying `p`. -/
def dropEndWhile (p : Char → Bool) : Str → Str
  | [] => []
  | c :: cs =>
    match dropEndWhile p cs with
    | [] => if p c then [] else [c]
    | d :: ds => c :: d :: ds

/-- JavaScript `trim()`: strip leading and trailing whitespace. -/
def trimStr (s : Str) : Str :=
  dropEndWhile isJsSpace (s.dropWhile isJsSpace)

/-- `sanitizeInput` from the admin panel: strip angle brackets, remove
`javascript:` occurrences, remove inline-event-handler patterns, trim. -/
def sanitizeInput (s : Str) : Str :=
  trimStr (removeOnHandlers (removeJsProto (stripAngles s)))

/-- Exact (case-sensitive) leading-pattern test. -/
def hasPfx : Str → Str → Bool
  | [], _ => true
  | _ :: _, [] => false
  | p :: ps, c :: cs => p == c && hasPfx ps cs

/-- `t` occurs verbatim as a contiguous substring of `s`. -/
def containsSub (pat : Str) : Str → Bool
  | [] => decide (pat = [])
  | c :: cs => hasPfx pat (c :: cs) || containsSub pat cs

theorem removeJsProtoF_sublist : ∀ (fuel : Nat) (s : Str), (removeJsProtoF fuel s).Sublist s := by
  intro fuel
  induction fuel with
  | zero => intro s; exact List.Sublist.refl s
  | succ n ih =>
    intro s
    match s with
    | [] => simp [removeJsProtoF]
    | c :: cs =>
      simp only [removeJsProtoF]
      split
      · rename_i rest h
        exact (ih rest).trans (dropPatCI_sublist _ _ _ h)
      · exact (ih cs).cons₂ c

theorem removeJsProto_sublist (s : Str) : (removeJsProto s).Sublist s :=
  removeJsProtoF_sublist s.length s

theorem removeOnHandlersF_sublist : ∀ (fuel : Nat) (s : Str), (removeOnHandlersF fuel s).Sublist s := by
  intro fuel
  induction fuel with
  | zero => intro s; exact List.Sublist.refl s
  | succ n ih =>
    intro s
    match s with
    | [] => simp [removeOnHandlersF]
    | c :: cs =>
      simp only [removeOnHandlersF]
      split
      · rename_i rest h
        exact (ih rest).trans (matchOn_sublist _ _ h).1
      · exact (ih cs).cons₂ c

theorem removeOnHandlers_sublist (s : Str) : (removeOnHandlers s).Sublist s :=
  removeOnHandlersF_sublist s.length s

theorem stripAngles_sublist (s : Str) : (stripAngles s).Sublist s :=
  List.filter_sublist s

theorem dropEndWhile_sublist (p : Char → Bool) : ∀ (s : Str), (dropEndWhile p s).Sublist s := by
  intro s
  induction s with
  | nil => simp [dropEndWhile]
  | cons c cs ih =>
    simp only [dropEndWhile]
    split
    · rename_i h
      split
      · exact List.nil_sublist _
      · exact List.Sublist.cons₂ c (by simp [h] at ih ⊢)
    · rename_i d ds h
      rw [h] at ih
      exact ih.cons₂ c

theorem trimStr_sublist (s : Str) : (trimStr s).Sublist s :=
  (dropEndWhile_sublist isJsSpace _).trans (List.dropWhile_sublist _)

theorem sanitizeInput_sublist_stripAngles (s : Str) :
    (sanitizeInput s).Sublist (stripAngles s) :=
  ((trimStr_sublist _).trans (removeOnHandlers_sublist _)).trans (removeJsProto_sublist _)

theorem sanitizeInput_sublist (s : Str) : (sanitizeInput s).Sublist s :=
  (sanitizeInput_sublist_stripAngles s).trans (stripAngles_sublist s)

theorem sanitizeInput_length_le (s : Str) : (sanitizeInput s).length ≤ s.length :=
  (sanitizeInput_sublist s).length_le

theorem not_mem_stripAngles_lt (s : Str) : '<' ∉ stripAngles s := by
  intro h
  have := (List.mem_filter.mp h).2
  simp at this

theorem not_mem_stripAngles_gt (s : Str) : '>' ∉ stripAngles s := by
  intro h
  have := (List.mem_filter.mp h).2
  simp at this

theorem containsSub_head_mem :
    ∀ (p : Char) (ps t : Str), containsSub (p :: ps) t = true → p ∈ t := by
  intro p ps t
  induction t with
  | nil => simp [containsSub]
  | cons c cs ih =>
    intro h
    simp only [containsSub, Bool.or_eq_true] at h
    rcases h with h | h
    · simp only [hasPfx, Bool.and_eq_true, beq_iff_eq] at h
      simp [h.1]
    · exact List.mem_cons_of_mem c (ih h)

theorem ofNat_shift_ne_colon : ∀ n : Nat, 65 ≤ n → n ≤ 90 → Char.ofNat (n + 32) ≠ ':' := by
  intro n h1 h2
  interval_cases n <;> decide

theorem chEqCI_colon (c : Char) : chEqCI ':' c = true → c = ':' := by
  intro h
  have hcolon : foldCase ':' = ':' := by decide
  simp only [chEqCI, hcolon, beq_iff_eq] at h
  have h2 : foldCase c = ':' := h.symm
  unfold foldCase at h2
  split at h2
  · rename_i hr
    exact absurd h2 (ofNat_shift_ne_colon c.toNat hr.1 hr.2)
  · exact h2

theorem dropPatCI_exists_CI :
    ∀ (ps s t : Str), dropPatCI ps s = some t → ∀ p ∈ ps, ∃ c ∈ s, chEqCI p c = true := by
  intro ps
  induction ps with
  | nil => intro s t h p hp; simp at hp
  | cons q qs ih =>
    intro s t h p hp
    match s with
    | [] => simp [dropPatCI] at h
    | c :: cs =>
      simp only [dropPatCI] at h
      split at h
      · rename_i hq
        rcases List.mem_cons.mp hp with rfl | hp2
        · exact ⟨c, List.mem_cons_self c cs, hq⟩
        · obtain ⟨d, hd, hci⟩ := ih cs t h p hp2
          exact ⟨d, List.mem_cons_of_mem c hd, hci⟩
      · exact absurd h (by simp)

theorem dropPatCI_js_colon (s t : Str) (h : dropPatCI jsProto s = some t) : ':' ∈ s := by
  obtain ⟨c, hc, hci⟩ := dropPatCI_exists_CI jsProto s t h ':' (by simp [jsProto])
  rw [chEqCI_colon c hci] at hc
  exact hc

theorem removeJsProtoF_id : ∀ (fuel : Nat) (s : Str), ':' ∉ s → removeJsProtoF fuel s = s := by
  intro fuel
  induction fuel with
  | zero => intro s _; rfl
  | succ n ih =>
    intro s hs
    match s with
    | [] => rfl
    | c :: cs =>
      simp only [removeJsProtoF]
      split
      · rename_i rest h
        exact absurd (dropPatCI_js_colon _ _ h) hs
      · rw [ih cs (fun hmem => hs (List.mem_cons_of_mem c hmem))]

theorem removeJsProto_id (s : Str) (h : ':' ∉ s) : removeJsProto s = s :=
  removeJsProtoF_id s.length s h

theorem matchOn_eq_mem (s t : Str) (h : matchOn s = some t) : '=' ∈ s := by
  match s with
  | [] => simp [matchOn] at h
  | [c] => simp [matchOn] at h
  | c1 :: c2 :: cs =>
    simp only [matchOn] at h
    split at h
    · split at h
      · exact absurd h (by simp)
      · split at h
        · rename_i r hdw
          have h1 : (cs.dropWhile isWordChar).Sublist cs := List.dropWhile_sublist _
          rw [hdw] at h1
          have h2 : '=' ∈ cs := h1.mem (List.mem_cons_self '=' r)
          exact List.mem_cons_of_mem c1 (List.mem_cons_of_mem c2 h2)
        · exact absurd h (by simp)
    · exact absurd h (by simp)

theorem removeOnHandlersF_id : ∀ (fuel : Nat) (s : Str), '=' ∉ s → removeOnHandlersF fuel s = s := by
  intro fuel
  induction fuel with
  | zero => intro s _; rfl
  | succ n ih =>
    intro s hs
    match s with
    | [] => rfl
    | c :: cs =>
      simp only [removeOnHandlersF]
      split
      · rename_i rest h
        exact absurd (matchOn_eq_mem _ _ h) hs
      · rw [ih cs (fun hmem => hs (List.mem_cons_of_mem c hmem))]

theorem removeOnHandlers_id (s : Str) (h : '=' ∉ s) : removeOnHandlers s = s :=
  removeOnHandlersF_id s.length s h

theorem stripAngles_id (s : Str) (h1 : '<' ∉ s) (h2 : '>' ∉ s) : stripAngles s = s := by
  apply List.filter_eq_self.mpr
  intro c hc
  simp only [Bool.not_eq_true', Bool.or_eq_false_iff, beq_eq_false_iff_ne, ne_eq]
  exact ⟨fun he => h1 (he ▸ hc), fun he => h2 (he ▸ hc)⟩

theorem dropWhile_idem (p : Char → Bool) :
    ∀ s : Str, (s.dropWhile p).dropWhile p = s.dropWhile p := by
  intro s
  induction s with
  | nil => rfl
  | cons c cs ih =>
    rw [List.dropWhile_cons]
    split
    · exact ih
    · rename_i hpc
      rw [List.dropWhile_cons]
      simp [hpc]

theorem dropEndWhile_cons (p : Char → Bool) (c : Char) (cs : Str) :
    dropEndWhile p (c :: cs) =
      match dropEndWhile p cs with
      | [] => if p c then [] else [c]
      | d :: ds => c :: d :: ds := rfl

theorem dropEndWhile_idem (p : Char → Bool) :
    ∀ s : Str, dropEndWhile p (dropEndWhile p s) = dropEndWhile p s := by
  intro s
  induction s with
  | nil => rfl
  | cons c cs ih =>
    rw [dropEndWhile_cons]
    split
    · rename_i h
      split
      · rfl
      · rename_i hpc
        simp [dropEndWhile, hpc]
    · rename_i d ds h
      rw [h] at ih
      rw [dropEndWhile_cons, ih]

theorem dropWhile_dropEndWhile (p : Char → Bool) (s : Str) (h : s.dropWhile p = s) :
    (dropEndWhile p s).dropWhile p = dropEndWhile p s := by
  match s with
  | [] => rfl
  | c :: cs =>
    have hpc : p c = false := by
      rw [List.dropWhile_cons] at h
      by_cases hp : p c = true
      · rw [if_pos hp] at h
        have := (List.dropWhile_sublist (l := cs) p).length_le
        rw [h] at this
        simp at this
      · simpa using hp
    simp only [dropEndWhile]
    split
    · rename_i hnil
      simp [hpc]
    · rename_i d ds hd
      have : c = c := rfl
      rw [List.dropWhile_cons, hpc]
      simp

theorem trimStr_idem (s : Str) : trimStr (trimStr s) = trimStr s := by
  unfold trimStr
  rw [dropWhile_dropEndWhile isJsSpace _ (dropWhile_idem isJsSpace s),
    dropEndWhile_idem]

theorem sanitizeInput_fix (s : Str) (h1 : '<' ∉ s) (h2 : '>' ∉ s) (h3 : ':' ∉ s)
    (h4 : '=' ∉ s) (h5 : trimStr s = s) : sanitizeInput s = s := by
  unfold sanitizeInput
  rw [stripAngles_id s h1 h2, removeJsProto_id s h3, removeOnHandlers_id s h4, h5]

theorem sanitizeInput_idem (s : Str) (h3 : ':' ∉ s) (h4 : '=' ∉ s) :
    sanitizeInput (sanitizeInput s) = sanitizeInput s := by
  have hsub : (sanitizeInput s).Sublist (stripAngles s) := sanitizeInput_sublist_stripAngles s
  have hsub2 : (sanitizeInput s).Sublist s := sanitizeInput_sublist s
  apply sanitizeInput_fix
  · exact fun hm => not_mem_stripAngles_lt s (hsub.mem hm)
  · exact fun hm => not_mem_stripAngles_gt s (hsub.mem hm)
  · exact fun hm => h3 (hsub2.mem hm)
  · exact fun hm => h4 (hsub2.mem hm)
  · exact trimStr_idem _

/-! ### Menu item validation (the `menuItemSchema` object) -/

def mainCourse : Str := ['M', 'a', 'i', 'n', ' ', 'C', 'o', 'u', 'r', 's', 'e']

def dessertCat : Str := ['D', 'e', 's', 's', 'e', 'r', 't']

def beverageCat : Str := ['B', 'e', 'v', 'e', 'r', 'a', 'g', 'e']

def snacksCat : Str := ['S', 'n', 'a', 'c', 'k', 's']

def level1 : Str := ['L', 'e', 'v', 'e', 'l', ' ', '1']

def level2 : Str := ['L', 'e', 'v', 'e', 'l', ' ', '2']

def level3 : Str := ['L', 'e', 'v', 'e', 'l', ' ', '3']

/-- `CATEGORIES = ["Main Course", "Dessert", "Beverage", "Snacks"]`. -/
def CATEGORIES : List Str := [mainCourse, dessertCat, beverageCat, snacksCat]

/-- `LEVELS = ["Level 1", "Level 2", "Level 3"]`. -/
def LEVELS : List Str := [level1, level2, level3]

/-- Raw form input to menu item validation.  The price is a rational number
standing for the exact decimal carried by the form. -/
structure RawMenuInput where
  name : Str
  price : ℚ
  category : Str
  canteen_level : Str
deriving DecidableEq

/-- The field-level validation errors of `menuItemSchema`, in the order the
schema declares the checks. -/
inductive VErr where
  | nameRequired
  | nameTooLong
  | priceNotPositive
  | priceTooLarge
  | categoryRequired
  | categoryInvalid
  | levelRequired
  | levelInvalid
deriving DecidableEq

/-- A normalized menu item record produced by validation. -/
structure ParsedMenuItem where
  name : Str
  price : ℚ
  category : Str
  canteen_level : Str
deriving DecidableEq

/-- `menuItemSchema.parse`: trims the name, checks its length bounds,
checks the price sign and ceiling, checks category and level against the
fixed enumerations, then applies `sanitizeInput` to the trimmed name.  The
first failing check is surfaced. -/
def parseMenuItem (r : RawMenuInput) : Except VErr ParsedMenuItem :=
  if (trimStr r.name).length < 1 then .error .nameRequired
  else if 100 < (trimStr r.name).length then .error .nameTooLong
  else if r.price ≤ 0 then .error .priceNotPositive
  else if 10000 < r.price then .error .priceTooLarge
  else if r.category.length < 1 then .error .categoryRequired
  else if r.category ∉ CATEGORIES then .error .categoryInvalid
  else if r.canteen_level.length < 1 then .error .levelRequired
  else if r.canteen_level ∉ LEVELS then .error .levelInvalid
  else .ok ⟨sanitizeInput (trimStr r.name), r.price, r.category, r.canteen_level⟩

/-! ### The admin panel's save/delete handlers over the Firestore-backed
catalog store -/

/-- A stored catalog record: document id plus the menu item fields;
`created_at` is the server-assigned timestamp. -/
structure StoredItem where
  id : Nat
  name : Str
  price : ℚ
  category : Str
  canteen_level : Str
  created_at : Nat
deriving DecidableEq

/-- A call issued to the backend by the admin panel. -/
inductive BackendCall where
  | insert (p : ParsedMenuItem)
  | updateItem (id : Nat) (p : ParsedMenuItem)
deriving DecidableEq

/-- Result of one `handleSave` invocation: the catalog store afterwards,
the backend calls issued, and the surfaced validation error, if any. -/
structure SaveResult where
  store : List StoredItem
  calls : List BackendCall
  vError : Option VErr
deriving DecidableEq

/-- Effect of the update branch of `handleSave` on the store.  The payload
written by `updateDoc` contains the four parsed fields and a fresh
`created_at: serverTimestamp()`, so the matched document's `created_at` is
overwritten with `now`.  (An edit always targets an existing row; updating
an absent id fails in the backend, a case no property here relies on.) -/
def applyFirebaseUpdate (store : List StoredItem) (id : Nat) (p : ParsedMenuItem)
    (now : Nat) : List StoredItem :=
  store.map (fun it =>
    if it.id = id then ⟨it.id, p.name, p.price, p.category, p.canteen_level, now⟩ else it)

/-- Effect of the insert branch of `handleSave`: `addDoc` appends a new
document under a fresh id with `created_at: serverTimestamp()`. -/
def applyFirebaseInsert (store : List StoredItem) (freshId : Nat) (p : ParsedMenuItem)
    (now : Nat) : List StoredItem :=
  store ++ [⟨freshId, p.name, p.price, p.category, p.canteen_level, now⟩]

/-- `handleSave`: parse the form with `menuItemSchema`; on a validation
error, surface it without touching the backend; otherwise issue the update
(when editing) or the insert (when adding). -/
def handleSave (store : List StoredItem) (editItem : Option Nat) (form : RawMenuInput)
    (now freshId : Nat) : SaveResult :=
  match parseMenuItem form with
  | .error e => ⟨store, [], some e⟩
  | .ok p =>
    match editItem with
    | some id => ⟨applyFirebaseUpdate store id p now, [.updateItem id p], none⟩
    | none => ⟨applyFirebaseInsert store freshId p now, [.insert p], none⟩

/-! ### The HTTP CRUD endpoint variant (`/api/menu` backed by a relational
table) -/

/-- A row of the relational `menu_items` table (columns `id`, `name`,
`price`, `category`, `canteen_level`, `created_at`; uniqueness on `id`). -/
structure DbItem where
  id : Nat
  name : Str
  price : ℚ
  category : Str
  canteenLevel : Str
  createdAt : Nat
deriving DecidableEq

/-- Lexicographic string comparison by character code, the ascending order
a database applies to text columns here. -/
def strLe : Str → Str → Bool
  | [], _ => true
  | _ :: _, [] => false
  | a :: as, b :: bs => if a < b then true else if b < a then false else strLe as bs

/-- The composite ordering key `(canteenLevel, category, name)` ascending. -/
def keyLe (a b : DbItem) : Bool :=
  if a.canteenLevel = b.canteenLevel then
    if a.category = b.category then strLe a.name b.name
    else strLe a.category b.category
  else strLe a.canteenLevel b.canteenLevel

/-- Does a row match the optional level filter of `GET /menu?level=<L>`? -/
def matchesLevel (level : Option Str) (it : DbItem) : Bool :=
  match level with
  | none => true
  | some l => decide (it.canteenLevel = l)

/-- Modelled from the spec: the catalog backend's `findMany` with a `where`
filter and an ascending `orderBy` key returns exactly the matching rows in
ascending key order (the database call itself is outside the repository).
This is the `GET` handler's result. -/
def listMenu (store : List DbItem) (level : Option Str) : List DbItem :=
  List.insertionSort (fun a b => keyLe a b = true) (store.filter (matchesLevel level))

/-- The mutable fields carried by the body of `PUT /menu`. -/
structure PutBody where
  name : Str
  price : ℚ
  category : Str
  canteenLevel : Str
deriving DecidableEq

/-- Database-facade errors of the endpoint variant. -/
inductive DbErr where
  | notFound
deriving DecidableEq

/-- Modelled from the spec: the backend's `update` keyed on a unique `id`
replaces the fields named in `data` on the matching row and raises a
not-found error when no row has that id (the database call itself is
outside the repository).  This is the `PUT` handler's effect: `data` names
`name`, `price`, `category`, `canteenLevel` — not `id`, not `createdAt`. -/
def putMenu (store : List DbItem) (id : Nat) (b : PutBody) : Except DbErr (List DbItem) :=
  if store.any (fun it => it.id = id) then
    .ok (store.map (fun it =>
      if it.id = id then ⟨it.id, b.name, b.price, b.category, b.canteenLevel, it.createdAt⟩
      else it))
  else .error .notFound

/-- Modelled from the spec: the backend's `delete` keyed on a unique `id`
removes the matching row and raises a not-found error when no row has that
id (the reference behaviour the spec fixes for delete-of-missing-id).
This is the `DELETE` handler's effect. -/
def deleteMenu (store : List DbItem) (id : Nat) : Except DbErr (List DbItem) :=
  if store.any (fun it => it.id = id) then
    .ok (store.filter (fun it => it.id ≠ id))
  else .error .notFound

/-! ### Admin user management handlers -/

def adminRole : Str := ['a', 'd', 'm', 'i', 'n']

def contentManagerRole : Str :=
  ['c', 'o', 'n', 't', 'e', 'n', 't', '_', 'm', 'a', 'n', 'a', 'g', 'e', 'r']

/-- A user record as listed in the admin panel. -/
structure UserRec where
  uid : Nat
  role : Str
deriving DecidableEq

/-- A call issued to the user-management backend. -/
inductive UserCall where
  | deleteUser (uid : Nat)
  | setRole (uid : Nat) (role : Str)
deriving DecidableEq

/-- Result of a user-management handler: users afterwards, calls issued,
and whether the handler rejected the action with an error message. -/
structure UserActionResult where
  users : List UserRec
  calls : List UserCall
  rejected : Bool
deriving DecidableEq

/-- `handleDeleteUser(uid, role)`: refuses when the target row's role is
`admin`; otherwise calls the delete-user backend, which removes the
account. -/
def handleDeleteUser (users : List UserRec) (uid : Nat) (role : Str) : UserActionResult :=
  if role = adminRole then ⟨users, [], true⟩
  else ⟨users.filter (fun u => u.uid ≠ uid), [.deleteUser uid], false⟩

/-- `handleUpdateUserRole(uid, newRole, currentRole)`: refuses any change
of an `admin` to a different role; otherwise calls the role-update
backend. -/
def handleUpdateUserRole (users : List UserRec) (uid : Nat) (newRole currentRole : Str) :
    UserActionResult :=
  if currentRole = adminRole ∧ newRole ≠ adminRole then ⟨users, [], true⟩
  else ⟨users.map (fun u => if u.uid = uid then ⟨u.uid, newRole⟩ else u),
    [.setRole uid newRole], false⟩

/-- `handleRemoveAdmin(id)` from the legacy admin panel: deletes the
`admin_users` document unconditionally — no role check guards it. -/
def handleRemoveAdmin (users : List UserRec) (id : Nat) : UserActionResult :=
  ⟨users.filter (fun u => u.uid ≠ id), [.deleteUser id], false⟩

/-! ### Sign-up credential validation (password component of `signUpSchema`) -/

/-- `[A-Z]` of a JavaScript regex. -/
def isUpperAscii (c : Char) : Bool := 65 ≤ c.toNat && c.toNat ≤ 90

/-- `[a-z]` of a JavaScript regex. -/
def isLowerAscii (c : Char) : Bool := 97 ≤ c.toNat && c.toNat ≤ 122

/-- `[0-9]` of a JavaScript regex. -/
def isDigitAscii (c : Char) : Bool := 48 ≤ c.toNat && c.toNat ≤ 57

/-- The password and confirmation checks of `signUpSchema`: length 8–100,
a `[A-Z]`, `[a-z]` and `[0-9]` match on the password, a nonempty
confirmation, and the object-level refinement `password === confirmPassword`. -/
def signUpPasswordOk (password confirm : Str) : Bool :=
  (8 ≤ password.length) && (password.length ≤ 100) &&
    password.any isUpperAscii && password.any isLowerAscii &&
    password.any isDigitAscii && (1 ≤ confirm.length) && (password = confirm)

/-! ### Public menu viewer level selection -/

/-- The `selectedLevel` initializer: take the persisted value only when it
is truthy and a member of `LEVELS`, else fall back to `"Level 1"`. -/
def initLevel (saved : Option Str) : Str :=
  match saved with
  | none => level1
  | some s => if s ≠ [] ∧ s ∈ LEVELS then s else level1

/-- Viewer state: the selected level plus the persisted
`canteen_currentLevel` slot of local storage. -/
structure ViewerState where
  selectedLevel : Str
  storage : Option Str
deriving DecidableEq

/-- Mounting the viewer: initialize `selectedLevel` from storage. -/
def initViewer (storage : Option Str) : ViewerState := ⟨initLevel storage, storage⟩

/-- The label of the `i`-th level button; the buttons are rendered by
mapping over `LEVELS`. -/
def levelButton (i : Fin 3) : Str := LEVELS.get ⟨i.1, i.2⟩

/-- `handleLevelChange`: set the selected level and persist it; the prior
state is discarded wholesale. -/
def handleLevelChange (_st : ViewerState) (level : Str) : ViewerState :=
  ⟨level, some level⟩

/-- One user interaction: clicking level button `i`. -/
def stepViewer (st : ViewerState) (i : Fin 3) : ViewerState :=
  handleLevelChange st (levelButton i)

/-- The viewer after mounting with the given persisted value and processing
a sequence of level-button clicks. -/
def runViewer (storage : Option Str) (clicks : List (Fin 3)) : ViewerState :=
  clicks.foldl stepViewer (initViewer storage)

/-! ### Order lemmas for the listing key -/

theorem strLe_total : ∀ a b : Str, strLe a b = true ∨ strLe b a = true := by
  intro a
  induction a with
  | nil => intro b; left; rfl
  | cons c cs ih =>
    intro b
    match b with
    | [] => right; rfl
    | d :: ds =>
      simp only [strLe]
      rcases lt_trichotomy c d with h | h | h
      · left; simp [h]
      · subst h
        rcases ih ds with h2 | h2
        · left; simp [h2]
        · right; simp [h2]
      · right; simp [h]

theorem strLe_trans : ∀ a b c : Str, strLe a b = true → strLe b c = true → strLe a c = true := by
  intro a
  induction a with
  | nil => intro b c _ _; rfl
  | cons x xs ih =>
    intro b c hab hbc
    match b, c with
    | [], _ => simp [strLe] at hab
    | _ :: _, [] => simp [strLe] at hbc
    | y :: ys, z :: zs =>
      simp only [strLe] at hab hbc ⊢
      by_cases h1 : x < y
      · by_cases h2 : y < z
        · rw [if_pos (lt_trans h1 h2)]
        · by_cases h3 : z < y
          · rw [if_neg h2, if_pos h3] at hbc
            exact absurd hbc (by simp)
          · have hyz : y = z := le_antisymm (not_lt.mp h3) (not_lt.mp h2)
            subst hyz
            rw [if_pos h1]
      · by_cases h4 : y < x
        · rw [if_neg h1, if_pos h4] at hab
          exact absurd hab (by simp)
        · have hxy : x = y := le_antisymm (not_lt.mp h4) (not_lt.mp h1)
          subst hxy
          rw [if_neg (lt_irrefl x), if_neg (lt_irrefl x)] at hab
          by_cases h2 : x < z
          · rw [if_pos h2]
          · by_cases h3 : z < x
            · rw [if_neg h2, if_pos h3] at hbc
              exact absurd hbc (by simp)
            · have hxz : x = z := le_antisymm (not_lt.mp h3) (not_lt.mp h2)
              subst hxz
              rw [if_neg (lt_irrefl x), if_neg (lt_irrefl x)] at hbc
              rw [if_neg (lt_irrefl x), if_neg (lt_irrefl x)]
              exact ih ys zs hab hbc

theorem strLe_antisymm : ∀ a b : Str, strLe a b = true → strLe b a = true → a = b := by
  intro a
  induction a with
  | nil =>
    intro b _ hba
    match b with
    | [] => rfl
    | _ :: _ => simp [strLe] at hba
  | cons x xs ih =>
    intro b hab hba
    match b with
    | [] => simp [strLe] at hab
    | y :: ys =>
      simp only [strLe] at hab hba
      by_cases h : x < y
      · rw [if_neg (lt_asymm h), if_pos h] at hba
        exact absurd hba (by simp)
      · by_cases h2 : y < x
        · rw [if_neg h, if_pos h2] at hab
          exact absurd hab (by simp)
        · have hxy : x = y := le_antisymm (not_lt.mp h2) (not_lt.mp h)
          subst hxy
          rw [if_neg (lt_irrefl x), if_neg (lt_irrefl x)] at hab hba
          rw [ih ys hab hba]

instance : IsTotal DbItem (fun a b => keyLe a b = true) := by
  constructor
  intro a b
  unfold keyLe
  by_cases h1 : a.canteenLevel = b.canteenLevel
  · rw [if_pos h1, if_pos h1.symm]
    by_cases h2 : a.category = b.category
    · rw [if_pos h2, if_pos h2.symm]
      exact strLe_total a.name b.name
    · rw [if_neg h2, if_neg (fun he => h2 he.symm)]
      exact strLe_total a.category b.category
  · rw [if_neg h1, if_neg (fun he => h1 he.symm)]
    exact strLe_total a.canteenLevel b.canteenLevel

instance : IsTrans DbItem (fun a b => keyLe a b = true) := by
  constructor
  intro a b c hab hbc
  unfold keyLe at hab hbc ⊢
  by_cases h1 : a.canteenLevel = b.canteenLevel
  · by_cases h2 : b.canteenLevel = c.canteenLevel
    · rw [if_pos h1] at hab
      rw [if_pos h2] at hbc
      rw [if_pos (h1.trans h2)]
      by_cases h3 : a.category = b.category
      · by_cases h4 : b.category = c.category
        · rw [if_pos h3] at hab
          rw [if_pos h4] at hbc
          rw [if_pos (h3.trans h4)]
          exact strLe_trans _ _ _ hab hbc
        · rw [if_pos h3] at hab
          rw [if_neg h4] at hbc
          rw [if_neg (fun he => h4 (h3.symm.trans he))]
          rw [h3]
          exact hbc
      · by_cases h4 : b.category = c.category
        · rw [if_neg h3] at hab
          rw [if_neg (fun he => h3 (he.trans h4.symm)), ← h4]
          exact hab
        · rw [if_neg h3] at hab
          rw [if_neg h4] at hbc
          by_cases h5 : a.category = c.category
          · exfalso
            rw [h5] at hab
            exact h3 (h5.trans (strLe_antisymm _ _ hbc hab).symm)
          · rw [if_neg h5]
            exact strLe_trans _ _ _ hab hbc
    · rw [if_pos h1] at hab
      rw [if_neg h2] at hbc
      rw [if_neg (fun he => h2 (h1.symm.trans he)), h1]
      exact hbc
  · by_cases h2 : b.canteenLevel = c.canteenLevel
    · rw [if_neg h1] at hab
      rw [if_neg (fun he => h1 (he.trans h2.symm)), ← h2]
      exact hab
    · rw [if_neg h1] at hab
      rw [if_neg h2] at hbc
      by_cases h3 : a.canteenLevel = c.canteenLevel
      · exfalso
        rw [h3] at hab
        exact h1 (h3.trans (strLe_antisymm _ _ hbc hab).symm)
      · rw [if_neg h3]
        exact strLe_trans _ _ _ hab hbc

/-! ### Sample inputs used by witnesses and counterexamples -/

/-- `"Fried Rice"`. -/
def friedRiceName : Str := ['F', 'r', 'i', 'e', 'd', ' ', 'R', 'i', 'c', 'e']

/-- `"Noodles"`. -/
def noodlesName : Str := ['N', 'o', 'o', 'd', 'l', 'e', 's']

/-- `"javajavascript:script:"`: deleting its inner `javascript:` splices the
surrounding halves into a new `javascript:`. -/
def spliceJs : Str :=
  ['j', 'a', 'v', 'a', 'j', 'a', 'v', 'a', 's', 'c', 'r', 'i', 'p', 't', ':',
   's', 'c', 'r', 'i', 'p', 't', ':']

def friedRiceInput : RawMenuInput := ⟨friedRiceName, 8, mainCourse, level1⟩

def friedRiceParsed : ParsedMenuItem := ⟨friedRiceName, 8, mainCourse, level1⟩

def spliceInput : RawMenuInput := ⟨spliceJs, 5, mainCourse, level1⟩

def angleInput : RawMenuInput := ⟨['<', '>'], 10, mainCourse, level1⟩

def negPriceInput : RawMenuInput := ⟨friedRiceName, -5, mainCourse, level1⟩

def noodlesInput : RawMenuInput := ⟨noodlesName, 9, snacksCat, level2⟩

def sampleStored : StoredItem := ⟨1, friedRiceName, 8, mainCourse, level1, 50⟩

def dbA : DbItem := ⟨1, friedRiceName, 8, mainCourse, level1, 50⟩

def putB : PutBody := ⟨noodlesName, 9, snacksCat, level2⟩

def adminUserA : UserRec := ⟨1, adminRole⟩

def adminUserB : UserRec := ⟨2, adminRole⟩

/-- `"password1"`. -/
def pwLower : Str := ['p', 'a', 's', 's', 'w', 'o', 'r', 'd', '1']

/-- `"Password1"`. -/
def pwMixed : Str := ['P', 'a', 's', 's', 'w', 'o', 'r', 'd', '1']

theorem mem_CATEGORIES_nonempty (c : Str) (h : c ∈ CATEGORIES) : 1 ≤ c.length := by
  simp only [CATEGORIES, List.mem_cons, List.not_mem_nil, or_false] at h
  rcases h with rfl | rfl | rfl | rfl <;> decide

theorem mem_LEVELS_nonempty (c : Str) (h : c ∈ LEVELS) : 1 ≤ c.length := by
  simp only [LEVELS, List.mem_cons, List.not_mem_nil, or_false] at h
  rcases h with rfl | rfl | rfl <;> decide

/-! ### Claims -/

/-- C1, counterexample: the input `"javajavascript:script:"` contains
`javascript:` verbatim, and so does its sanitized form — deleting the inner
occurrence splices the surrounding text into a new occurrence, so the
claimed guarantee fails for the `javascript:` pattern. -/
theorem C1_counterexample :
    containsSub jsProto spliceJs = true ∧
    sanitizeInput spliceJs = jsProto ∧
    containsSub jsProto (sanitizeInput spliceJs) = true := by decide

/-- C1, amended: for every input string the sanitized name contains no
angle bracket at all, hence never contains `<script>` verbatim.  The
analogous guarantee for `javascript:` and `onX=` does not hold, because
single-pass removal can splice a new occurrence out of the remnants. -/
theorem C1_theorem (s : Str) :
    '<' ∉ sanitizeInput s ∧ '>' ∉ sanitizeInput s ∧
    containsSub scriptTag (sanitizeInput s) = false := by
  have hlt : '<' ∉ sanitizeInput s :=
    fun hm => not_mem_stripAngles_lt s ((sanitizeInput_sublist_stripAngles s).mem hm)
  refine ⟨hlt, ?_, ?_⟩
  · exact fun hm => not_mem_stripAngles_gt s ((sanitizeInput_sublist_stripAngles s).mem hm)
  · by_contra h
    have hb : containsSub scriptTag (sanitizeInput s) = true := by
      revert h
      cases containsSub scriptTag (sanitizeInput s) <;> simp
    exact hlt (containsSub_head_mem '<' ['s', 'c', 'r', 'i', 'p', 't', '>'] _ hb)

/-- C2, counterexample: the input with name `"javajavascript:script:"` is a
valid MenuItem input (trimmed name 22 chars, price 5, category and level in
the enumerations) and validation succeeds on it, yet sanitization is not
idempotent on its name: the first pass yields `"javascript:"`, the second
deletes it, leaving the empty string. -/
theorem C2_counterexample :
    1 ≤ (trimStr spliceInput.name).length ∧ (trimStr spliceInput.name).length ≤ 100 ∧
    0 < spliceInput.price ∧ spliceInput.price ≤ 10000 ∧
    spliceInput.category ∈ CATEGORIES ∧ spliceInput.canteen_level ∈ LEVELS ∧
    (parseMenuItem spliceInput).isOk = true ∧
    sanitizeInput (sanitizeInput spliceInput.name) ≠ sanitizeInput spliceInput.name := by
  decide

/-- C2, amended: for every valid MenuItem input (trimmed name 1–100 chars,
price in `(0, 10000]`, category and level in their enumerations) menu item
validation succeeds; sanitization is idempotent on every name that contains
no colon and no equals sign (but not in general, as removal of the
`javascript:` and `onX=` patterns can splice new occurrences). -/
theorem C2_theorem (r : RawMenuInput)
    (h1 : 1 ≤ (trimStr r.name).length) (h2 : (trimStr r.name).length ≤ 100)
    (h3 : 0 < r.price) (h4 : r.price ≤ 10000)
    (h5 : r.category ∈ CATEGORIES) (h6 : r.canteen_level ∈ LEVELS) :
    (parseMenuItem r).isOk = true ∧
    (':' ∉ r.name → '=' ∉ r.name →
      sanitizeInput (sanitizeInput r.name) = sanitizeInput r.name) := by
  constructor
  · unfold parseMenuItem
    rw [if_neg (by omega), if_neg (by omega), if_neg (not_le.mpr h3),
      if_neg (not_lt.mpr h4), if_neg (by have := mem_CATEGORIES_nonempty _ h5; omega),
      if_neg (not_not_intro h5), if_neg (by have := mem_LEVELS_nonempty _ h6; omega),
      if_neg (not_not_intro h6)]
    rfl
  · exact fun hc he => sanitizeInput_idem r.name hc he

/-- C2, witness: the concrete valid input `{name: "Fried Rice", price: 8,
category: "Main Course", canteen_level: "Level 1"}`. -/
theorem C2_witness :
    (parseMenuItem friedRiceInput).isOk = true ∧
    (':' ∉ friedRiceInput.name → '=' ∉ friedRiceInput.name →
      sanitizeInput (sanitizeInput friedRiceInput.name) = sanitizeInput friedRiceInput.name) :=
  C2_theorem friedRiceInput (by decide) (by decide) (by decide) (by decide)
    (by decide) (by decide)

/-- C3, counterexample: the raw input with name `"<>"` is accepted by menu
item validation (trimmed length 2 passes the 1–100 check before the
transform), but the returned record's name is the empty string, of length
0 — the claimed lower bound of 1 fails. -/
theorem C3_counterexample :
    parseMenuItem angleInput = .ok ⟨[], 10, mainCourse, level1⟩ ∧
    ¬ 1 ≤ ([] : Str).length := by decide

/-- C3, amended: for every raw input accepted by menu item validation, the
name of the returned normalized record has length at most 100; the lower
bound of 1 holds only for the trimmed name before sanitization, which may
delete characters (even all of them). -/
theorem C3_theorem (r : RawMenuInput) (out : ParsedMenuItem)
    (h : parseMenuItem r = .ok out) : out.name.length ≤ 100 := by
  unfold parseMenuItem at h
  split at h
  · exact absurd h (by simp)
  · split at h
    · exact absurd h (by simp)
    · split at h
      · exact absurd h (by simp)
      · split at h
        · exact absurd h (by simp)
        · split at h
          · exact absurd h (by simp)
          · split at h
            · exact absurd h (by simp)
            · split at h
              · exact absurd h (by simp)
              · split at h
                · exact absurd h (by simp)
                · rename_i hlong _ _ _ _ _ _
                  simp only [Except.ok.injEq] at h
                  subst h
                  show (sanitizeInput (trimStr r.name)).length ≤ 100
                  have hle := sanitizeInput_length_le (trimStr r.name)
                  simp only [not_lt] at hlong
                  omega

/-- C3, witness: the accepted input `{name: "Fried Rice", price: 8, ...}`
whose returned record's name has length 10 ≤ 100. -/
theorem C3_witness : friedRiceParsed.name.length ≤ 100 :=
  C3_theorem friedRiceInput friedRiceParsed (by decide)

/-- C4: whenever menu item validation fails on the submitted form,
`handleSave` leaves the catalog store unchanged, issues no backend call,
and surfaces the validation error — the failing record is never partially
applied. -/
theorem C4_theorem (store : List StoredItem) (editItem : Option Nat)
    (form : RawMenuInput) (now freshId : Nat) (e : VErr)
    (h : parseMenuItem form = .error e) :
    handleSave store editItem form now freshId = ⟨store, [], some e⟩ := by
  unfold handleSave
  rw [h]

/-- C4, witness: the concrete scenario `{price: -5, ...otherwise valid}`:
validation fails with the price-related error and the store and call list
are untouched. -/
theorem C4_witness :
    handleSave [sampleStored] none negPriceInput 99 7 =
      ⟨[sampleStored], [], some .priceNotPositive⟩ :=
  C4_theorem [sampleStored] none negPriceInput 99 7 .priceNotPositive (by decide)

theorem mem_listMenu (store : List DbItem) (level : Option Str) (x : DbItem) :
    x ∈ listMenu store level ↔ x ∈ store ∧ matchesLevel level x = true := by
  unfold listMenu
  rw [(List.perm_insertionSort _ _).mem_iff, List.mem_filter]

/-- C5: for every catalog store and optional level filter, the list
operation returns exactly the items matching the filter — a permutation of
the filtered store, with membership characterized, and all items when no
filter is given — sorted ascending by the key
`(canteen_level, category, name)`. -/
theorem C5_theorem (store : List DbItem) (level : Option Str) :
    (listMenu store level).Perm (store.filter (matchesLevel level)) ∧
    List.Sorted (fun a b => keyLe a b = true) (listMenu store level) ∧
    (∀ x, x ∈ listMenu store level ↔ x ∈ store ∧ matchesLevel level x = true) ∧
    (∀ x, x ∈ listMenu store none ↔ x ∈ store) := by
  refine ⟨List.perm_insertionSort _ _, List.sorted_insertionSort _ _,
    mem_listMenu store level, ?_⟩
  intro x
  rw [mem_listMenu store none x]
  simp [matchesLevel]

/-- C6, counterexample: the Firebase admin panel's update path sends a
payload containing `created_at: serverTimestamp()`, so a valid edit of the
stored item (created at time 50) run at server time 99 rewrites the item's
`created_at` to 99 — the claim that update leaves `created_at` unchanged
fails on this variant. -/
theorem C6_counterexample :
    (handleSave [sampleStored] (some 1) noodlesInput 99 7).store.map
        (fun it => it.created_at) = [99] ∧
    [sampleStored].map (fun it => it.created_at) = [50] ∧
    (handleSave [sampleStored] (some 1) noodlesInput 99 7).vError = none := by decide

/-- C6, amended: in the REST endpoint variant, a successful `PUT` replaces
exactly the four mutable fields of the row with the matching identifier,
leaves its `id` and `createdAt` unchanged, and leaves every other row
untouched; the Firebase admin panel's update path also keeps the document
id fixed but overwrites `created_at` with a fresh server timestamp. -/
theorem C6_theorem (store : List DbItem) (id : Nat) (b : PutBody)
    (store2 : List DbItem) (h : putMenu store id b = .ok store2) :
    (List.Forall₂ (fun old new : DbItem =>
      new.id = old.id ∧ new.createdAt = old.createdAt ∧
      (old.id ≠ id → new = old) ∧
      (old.id = id → new.name = b.name ∧ new.price = b.price ∧
        new.category = b.category ∧ new.canteenLevel = b.canteenLevel))
      store store2) ∧
    (∀ (fstore : List StoredItem) (p : ParsedMenuItem) (fid now : Nat),
      (applyFirebaseUpdate fstore fid p now).map (fun it => it.id) =
        fstore.map (fun it => it.id)) := by
  constructor
  · unfold putMenu at h
    split at h
    · simp only [Except.ok.injEq] at h
      subst h
      apply List.forall₂_map_right_iff.mpr
      apply List.forall₂_same.mpr
      intro it _
      by_cases hid : it.id = id
      · rw [if_pos hid]
        exact ⟨rfl, rfl, fun hne => absurd hid hne, fun _ => ⟨rfl, rfl, rfl, rfl⟩⟩
      · rw [if_neg hid]
        exact ⟨rfl, rfl, fun _ => rfl, fun he => absurd he hid⟩
    · exact absurd h (by simp)
  · intro fstore p fid now
    unfold applyFirebaseUpdate
    rw [List.map_map]
    apply List.map_congr_left
    intro it _
    by_cases hid : it.id = fid
    · simp [hid]
    · simp [hid]

/-- C6, witness: updating the stored row with id 1 via `PUT` keeps id 1 and
`createdAt` 50 while replacing the four mutable fields. -/
theorem C6_witness :
    (List.Forall₂ (fun old new : DbItem =>
      new.id = old.id ∧ new.createdAt = old.createdAt ∧
      (old.id ≠ 1 → new = old) ∧
      (old.id = 1 → new.name = putB.name ∧ new.price = putB.price ∧
        new.category = putB.category ∧ new.canteenLevel = putB.canteenLevel))
      [dbA] [⟨1, noodlesName, 9, snacksCat, level2, 50⟩]) ∧
    (∀ (fstore : List StoredItem) (p : ParsedMenuItem) (fid now : Nat),
      (applyFirebaseUpdate fstore fid p now).map (fun it => it.id) =
        fstore.map (fun it => it.id)) :=
  C6_theorem [dbA] 1 putB [⟨1, noodlesName, 9, snacksCat, level2, 50⟩] (by decide)

/-- C7: deleting an identifier not present in the catalog store raises the
not-found error (an error, not a successful no-op), and after a successful
delete no subsequent listing, under any filter, contains the deleted
identifier. -/
theorem C7_theorem (store : List DbItem) (id : Nat) :
    ((∀ it ∈ store, it.id ≠ id) → deleteMenu store id = .error .notFound) ∧
    (∀ store2, deleteMenu store id = .ok store2 →
      ∀ level, ∀ it ∈ listMenu store2 level, it.id ≠ id) := by
  constructor
  · intro h
    unfold deleteMenu
    rw [if_neg ?hc]
    case hc =>
      intro hany
      obtain ⟨x, hx, hxid⟩ := List.any_eq_true.mp hany
      exact h x hx (by simpa using hxid)
  · intro store2 h level it hit
    unfold deleteMenu at h
    split at h
    · simp only [Except.ok.injEq] at h
      subst h
      have h1 := (mem_listMenu (store.filter (fun it => it.id ≠ id)) level it).mp hit
      have h2 := List.mem_filter.mp h1.1
      simpa using h2.2
    · exact absurd h (by simp)

/-- C7, witness: deleting the absent id 2 from the one-row store errors
with not-found; after deleting the present id 1 the listing is empty of
id 1. -/
theorem C7_witness :
    deleteMenu [dbA] 2 = .error .notFound ∧
    (∀ level, ∀ it ∈ listMenu [] level, it.id ≠ 1) :=
  ⟨(C7_theorem [dbA] 2).1 (by decide),
   fun level it hit => (C7_theorem [dbA] 1).2 [] (by decide) level it hit⟩

/-- C8, counterexample: the legacy admin panel's `handleRemoveAdmin`
deletes the target `admin_users` document without any role check, so a
delete-user operation run by one admin against the account with role
`admin` (uid 2) removes that admin account — the claimed protection does
not hold for this delete path. -/
theorem C8_counterexample :
    adminUserB.role = adminRole ∧
    handleRemoveAdmin [adminUserA, adminUserB] 2 =
      ⟨[adminUserA], [.deleteUser 2], false⟩ := by decide

/-- C8, amended: the role-gated handlers do protect admins — for every user
list and target, `handleDeleteUser` rejects a target whose role is `admin`
(no backend call, state unchanged), and `handleUpdateUserRole` rejects any
transition of an `admin` to a different role; the legacy panel's
`handleRemoveAdmin`, however, deletes its target unconditionally. -/
theorem C8_theorem (users : List UserRec) (uid : Nat) (newRole currentRole : Str) :
    handleDeleteUser users uid adminRole = ⟨users, [], true⟩ ∧
    (currentRole = adminRole → newRole ≠ adminRole →
      handleUpdateUserRole users uid newRole currentRole = ⟨users, [], true⟩) := by
  constructor
  · unfold handleDeleteUser
    rw [if_pos rfl]
  · intro h1 h2
    unfold handleUpdateUserRole
    rw [if_pos ⟨h1, h2⟩]

/-- C8, witness: deleting the admin with uid 1 is rejected, and demoting an
admin to content manager is rejected. -/
theorem C8_witness :
    handleDeleteUser [adminUserA] 1 adminRole = ⟨[adminUserA], [], true⟩ ∧
    handleUpdateUserRole [adminUserA] 1 contentManagerRole adminRole =
      ⟨[adminUserA], [], true⟩ :=
  ⟨(C8_theorem [adminUserA] 1 contentManagerRole adminRole).1,
   (C8_theorem [adminUserA] 1 contentManagerRole adminRole).2 rfl (by decide)⟩

theorem isUpperAscii_iff (c : Char) : isUpperAscii c = true ↔ ('A' ≤ c ∧ c ≤ 'Z') := by
  unfold isUpperAscii
  simp only [Bool.and_eq_true, decide_eq_true_eq]
  rw [Char.le_def, Char.le_def]
  exact ⟨fun h => ⟨h.1, h.2⟩, fun h => ⟨h.1, h.2⟩⟩

theorem isLowerAscii_iff (c : Char) : isLowerAscii c = true ↔ ('a' ≤ c ∧ c ≤ 'z') := by
  unfold isLowerAscii
  simp only [Bool.and_eq_true, decide_eq_true_eq]
  rw [Char.le_def, Char.le_def]
  exact ⟨fun h => ⟨h.1, h.2⟩, fun h => ⟨h.1, h.2⟩⟩

theorem isDigitAscii_iff (c : Char) : isDigitAscii c = true ↔ ('0' ≤ c ∧ c ≤ '9') := by
  unfold isDigitAscii
  simp only [Bool.and_eq_true, decide_eq_true_eq]
  rw [Char.le_def, Char.le_def]
  exact ⟨fun h => ⟨h.1, h.2⟩, fun h => ⟨h.1, h.2⟩⟩

/-- C9: sign-up validation accepts a password exactly when it has length 8
to 100 and contains an uppercase letter, a lowercase letter and a digit,
with the confirmation field equal to the password; in particular
`"password1"` is rejected and `"Password1"` is accepted. -/
theorem C9_theorem :
    (∀ p c : Str, signUpPasswordOk p c = true ↔
      (8 ≤ p.length ∧ p.length ≤ 100 ∧
        (∃ ch ∈ p, 'A' ≤ ch ∧ ch ≤ 'Z') ∧ (∃ ch ∈ p, 'a' ≤ ch ∧ ch ≤ 'z') ∧
        (∃ ch ∈ p, '0' ≤ ch ∧ ch ≤ '9') ∧ c = p)) ∧
    signUpPasswordOk pwLower pwLower = false ∧
    signUpPasswordOk pwMixed pwMixed = true := by
  refine ⟨?_, by decide, by decide⟩
  intro p c
  unfold signUpPasswordOk
  simp only [Bool.and_eq_true, decide_eq_true_eq, List.any_eq_true]
  constructor
  · rintro ⟨⟨⟨⟨⟨⟨h1, h2⟩, h3⟩, h4⟩, h5⟩, _⟩, h7⟩
    obtain ⟨u, hu, hu2⟩ := h3
    obtain ⟨lo, hlo, hlo2⟩ := h4
    obtain ⟨d, hd, hd2⟩ := h5
    exact ⟨h1, h2, ⟨u, hu, (isUpperAscii_iff u).mp hu2⟩,
      ⟨lo, hlo, (isLowerAscii_iff lo).mp hlo2⟩,
      ⟨d, hd, (isDigitAscii_iff d).mp hd2⟩, h7.symm⟩
  · rintro ⟨h1, h2, ⟨u, hu, hu2⟩, ⟨lo, hlo, hlo2⟩, ⟨d, hd, hd2⟩, rfl⟩
    refine ⟨⟨⟨⟨⟨⟨h1, h2⟩, ?_⟩, ?_⟩, ?_⟩, ?_⟩, rfl⟩
    · exact ⟨u, hu, (isUpperAscii_iff u).mpr hu2⟩
    · exact ⟨lo, hlo, (isLowerAscii_iff lo).mpr hlo2⟩
    · exact ⟨d, hd, (isDigitAscii_iff d).mpr hd2⟩
    · omega

theorem levelButton_mem (i : Fin 3) : levelButton i ∈ LEVELS :=
  LEVELS.get_mem i.1 i.2

theorem foldl_stepViewer_selected (clicks : List (Fin 3)) :
    ∀ st : ViewerState, st.selectedLevel ∈ LEVELS →
      (clicks.foldl stepViewer st).selectedLevel ∈ LEVELS := by
  induction clicks with
  | nil => intro st h; exact h
  | cons i is ih => intro st _; exact ih _ (levelButton_mem i)

theorem initLevel_some (s : Str) :
    initLevel (some s) = if s ≠ [] ∧ s ∈ LEVELS then s else level1 := rfl

theorem initLevel_mem (storage : Option Str) : initLevel storage ∈ LEVELS := by
  cases storage with
  | none => decide
  | some s =>
    rw [initLevel_some]
    split
    · rename_i h; exact h.2
    · decide

theorem foldl_stepViewer_storage (clicks : List (Fin 3)) :
    ∀ st : ViewerState, (clicks.foldl stepViewer st).storage = st.storage ∨
      ∃ l ∈ LEVELS, (clicks.foldl stepViewer st).storage = some l := by
  induction clicks with
  | nil => intro st; left; rfl
  | cons i is ih =>
    intro st
    rcases ih (stepViewer st i) with h | h
    · right
      exact ⟨levelButton i, levelButton_mem i, h⟩
    · right
      exact h

/-- C10: on the public menu viewer the selected level is always a member of
the fixed enumeration: after mounting with any persisted value and any
sequence of level-button clicks the selected level is in `LEVELS`, an
absent or out-of-enumeration persisted value falls back to `"Level 1"`, and
the persisted slot, when written, only ever holds enumeration members. -/
theorem C10_theorem (storage : Option Str) (clicks : List (Fin 3)) :
    (runViewer storage clicks).selectedLevel ∈ LEVELS ∧
    initLevel none = level1 ∧
    (∀ s, s ∉ LEVELS → initLevel (some s) = level1) ∧
    (∀ s, (runViewer storage clicks).storage = some s → s ∈ LEVELS ∨ storage = some s) := by
  refine ⟨?_, rfl, ?_, ?_⟩
  · exact foldl_stepViewer_selected clicks (initViewer storage) (initLevel_mem storage)
  · intro s hs
    rw [initLevel_some, if_neg (fun hcon => hs hcon.2)]
  · intro s hsome
    rcases foldl_stepViewer_storage clicks (initViewer storage) with h | ⟨l, hl, h⟩
    · right
      exact (h.symm.trans hsome : (initViewer storage).storage = some s)
    · left
      have h2 : some l = some s := h.symm.trans hsome
      have h3 : l = s := by injection h2
      exact h3 ▸ hl

/-- C10, witness: a persisted garbage value `"x"` falls back to `"Level 1"`
and a click on the second button selects and persists `"Level 2"`. -/
theorem C10_witness :
    (runViewer (some ['x']) [(1 : Fin 3)]).selectedLevel ∈ LEVELS ∧
    initLevel (some ['x']) = level1 ∧
    (level2 ∈ LEVELS ∨ (some ['x'] : Option Str) = some level2) := by
  have h := C10_theorem (some ['x']) [(1 : Fin 3)]
  exact ⟨h.1, h.2.2.1 ['x'] (by decide), h.2.2.2 level2 (by decide)⟩

end Canteen
